import Mathlib

/-!
Verification of the FIR-delay OLS regression core of the
nh2020-curriculum notebooks, together with the small statistics helper
functions of the p-value tutorial.  Matrices of the regression tutorial
are embedded over the rationals, which model the exact-arithmetic
content of the floating-point computations; the statistics helpers,
which genuinely use square roots, are embedded over the reals.
-/

open Matrix BigOperators

/-- Exact matrix inverse via the adjugate formula, used to embed matrix
inversion over the rationals.  When the determinant is nonzero this is
the true inverse; otherwise it degenerates to the zero matrix (callers
that model numpy guard on the determinant instead). -/
def qInv {n : ℕ} (A : Matrix (Fin n) (Fin n) ℚ) : Matrix (Fin n) (Fin n) ℚ :=
  A.det⁻¹ • A.adjugate

/-- Model of numpy.linalg.inv: the call raises LinAlgError on a singular
input, modelled as none; otherwise it returns the exact inverse. -/
def np_linalg_inv {n : ℕ} (A : Matrix (Fin n) (Fin n) ℚ) :
    Option (Matrix (Fin n) (Fin n) ℚ) :=
  if A.det = 0 then none else some (qInv A)

/-- Embedding of the first estimator of the tutorial, which solves the
regression by the explicit normal-equation formula
inv(X^T X) * X^T * Y via numpy.linalg.inv. -/
def beta_estimate_1 {T P V : ℕ} (X : Matrix (Fin T) (Fin P) ℚ)
    (Y : Matrix (Fin T) (Fin V) ℚ) : Option (Matrix (Fin P) (Fin V) ℚ) :=
  (np_linalg_inv (Xᵀ * X)).map fun M => M * Xᵀ * Y

/-- Modelled from the spec: numpy.linalg.lstsq is an external library
routine (its SVD-based implementation is not part of the sources); in
exact arithmetic on a design matrix of full column rank its minimum-norm
least-squares solution coincides with the normal-equation solution
inv(X^T X) * X^T * Y, which is the form embedded here.  Every theorem
about it carries the full-column-rank hypothesis det (X^T X) != 0. -/
def beta_ols {T P V : ℕ} (X : Matrix (Fin T) (Fin P) ℚ)
    (Y : Matrix (Fin T) (Fin V) ℚ) : Matrix (Fin P) (Fin V) ℚ :=
  qInv (Xᵀ * X) * (Xᵀ * Y)

/-- Sum of squared entries of a matrix: the squared Frobenius norm,
which is the column-wise sum of squared residuals when applied to
Y - X * B. -/
def frobSq {m k : ℕ} (M : Matrix (Fin m) (Fin k) ℚ) : ℚ :=
  ∑ i, ∑ j, (M i j) ^ 2

/-- Entrywise dot product of two matrices of the same shape. -/
def dotM {m k : ℕ} (A B : Matrix (Fin m) (Fin k) ℚ) : ℚ :=
  ∑ i, ∑ j, A i j * B i j

lemma frobSq_nonneg {m k : ℕ} (M : Matrix (Fin m) (Fin k) ℚ) :
    0 ≤ frobSq M := by
  refine Finset.sum_nonneg fun i _ => Finset.sum_nonneg fun j _ => ?_
  positivity

lemma frobSq_eq_zero {m k : ℕ} {M : Matrix (Fin m) (Fin k) ℚ}
    (h : frobSq M = 0) : M = 0 := by
  ext i j
  have hrow : ∀ i ∈ Finset.univ, (0 : ℚ) ≤ ∑ j, (M i j) ^ 2 := by
    intro i _
    exact Finset.sum_nonneg fun j _ => by positivity
  have h1 := (Finset.sum_eq_zero_iff_of_nonneg hrow).mp h i (Finset.mem_univ i)
  have hcell : ∀ j ∈ Finset.univ, (0 : ℚ) ≤ (M i j) ^ 2 := by
    intro j _; positivity
  have h2 := (Finset.sum_eq_zero_iff_of_nonneg hcell).mp h1 j (Finset.mem_univ j)
  have := sq_eq_zero_iff.mp h2
  simpa using this

lemma qInv_mul {n : ℕ} {A : Matrix (Fin n) (Fin n) ℚ} (h : A.det ≠ 0) :
    qInv A * A = 1 := by
  unfold qInv
  rw [Matrix.smul_mul, Matrix.adjugate_mul, smul_smul, inv_mul_cancel₀ h, one_smul]

lemma mul_qInv {n : ℕ} {A : Matrix (Fin n) (Fin n) ℚ} (h : A.det ≠ 0) :
    A * qInv A = 1 := by
  unfold qInv
  rw [Matrix.mul_smul, Matrix.mul_adjugate, smul_smul, inv_mul_cancel₀ h, one_smul]

lemma normal_equation {T P V : ℕ} (X : Matrix (Fin T) (Fin P) ℚ)
    (Y : Matrix (Fin T) (Fin V) ℚ) (h : (Xᵀ * X).det ≠ 0) :
    (Xᵀ * X) * beta_ols X Y = Xᵀ * Y := by
  unfold beta_ols
  rw [← Matrix.mul_assoc, mul_qInv h, Matrix.one_mul]

lemma residual_orth {T P V : ℕ} (X : Matrix (Fin T) (Fin P) ℚ)
    (Y : Matrix (Fin T) (Fin V) ℚ) (h : (Xᵀ * X).det ≠ 0) :
    Xᵀ * (Y - X * beta_ols X Y) = 0 := by
  rw [Matrix.mul_sub, ← Matrix.mul_assoc, normal_equation X Y h, sub_self]

lemma dotM_mul {T P V : ℕ} (X : Matrix (Fin T) (Fin P) ℚ)
    (R : Matrix (Fin T) (Fin V) ℚ) (M : Matrix (Fin P) (Fin V) ℚ) :
    dotM R (X * M) = dotM (Xᵀ * R) M := by
  have l1 : dotM R (X * M) =
      ∑ i, ∑ j, ∑ k, R i j * (X i k * M k j) := by
    unfold dotM
    simp only [Matrix.mul_apply, Finset.mul_sum]
  have l2 : dotM (Xᵀ * R) M =
      ∑ k, ∑ j, ∑ i, X i k * R i j * M k j := by
    unfold dotM
    simp only [Matrix.mul_apply, Matrix.transpose_apply, Finset.sum_mul]
  rw [l1, l2]
  calc ∑ i, ∑ j, ∑ k, R i j * (X i k * M k j)
      = ∑ i, ∑ k, ∑ j, R i j * (X i k * M k j) :=
        Finset.sum_congr rfl fun i _ => Finset.sum_comm
    _ = ∑ k, ∑ i, ∑ j, R i j * (X i k * M k j) := Finset.sum_comm
    _ = ∑ k, ∑ j, ∑ i, R i j * (X i k * M k j) :=
        Finset.sum_congr rfl fun k _ => Finset.sum_comm
    _ = ∑ k, ∑ j, ∑ i, X i k * R i j * M k j := by
        refine Finset.sum_congr rfl fun k _ => ?_
        refine Finset.sum_congr rfl fun j _ => ?_
        refine Finset.sum_congr rfl fun i _ => ?_
        ring

lemma dotM_zero_left {m k : ℕ} (M : Matrix (Fin m) (Fin k) ℚ) :
    dotM 0 M = 0 := by
  unfold dotM
  simp

lemma frobSq_add {m k : ℕ} (R D : Matrix (Fin m) (Fin k) ℚ) :
    frobSq (R + D) = frobSq R + 2 * dotM R D + frobSq D := by
  unfold frobSq dotM
  have h : ∀ i j, (R i j + D i j) ^ 2 =
      R i j ^ 2 + 2 * (R i j * D i j) + D i j ^ 2 := by
    intro i j; ring
  simp only [Matrix.add_apply, h, Finset.sum_add_distrib, Finset.mul_sum]

/-- Residual decomposition: for the normal-equation solution, the
residual of any other candidate B splits into the optimal residual plus
the squared norm of X * (beta - B). -/
lemma residual_decomp {T P V : ℕ} (X : Matrix (Fin T) (Fin P) ℚ)
    (Y : Matrix (Fin T) (Fin V) ℚ) (h : (Xᵀ * X).det ≠ 0)
    (B : Matrix (Fin P) (Fin V) ℚ) :
    frobSq (Y - X * B) =
      frobSq (Y - X * beta_ols X Y) + frobSq (X * (beta_ols X Y - B)) := by
  have hsplit : Y - X * B =
      (Y - X * beta_ols X Y) + X * (beta_ols X Y - B) := by
    rw [Matrix.mul_sub]; abel
  rw [hsplit, frobSq_add, dotM_mul, residual_orth X Y h, dotM_zero_left]
  ring

lemma cancel_left {n V : ℕ} {A : Matrix (Fin n) (Fin n) ℚ}
    (h : A.det ≠ 0) {M : Matrix (Fin n) (Fin V) ℚ} (hm : A * M = 0) :
    M = 0 := by
  have := congrArg (fun N => qInv A * N) hm
  simpa [← Matrix.mul_assoc, qInv_mul h] using this

/-- Number of columns of a matrix stored as a list of rows, read off the
first row, matching how numpy reports the second shape component. -/
def numCols (X : List (List ℚ)) : ℕ := (X.headD []).length

/-- Modelled from the spec: util.make_delayed is imported by the
notebook but util.py is not among the sources.  Following the spec, for
a T x F matrix and an ordered delay list, block i of the output is the
input shifted down by delays i rows with the top rows zero-filled, and
blocks are concatenated in delay-list order. -/
def make_delayed (X : List (List ℚ)) (delays : List ℕ) : List (List ℚ) :=
  (List.range X.length).map fun t =>
    (delays.map fun d =>
      if t < d then List.replicate (numCols X) 0
      else X.getD (t - d) (List.replicate (numCols X) 0)).flatten

lemma getD_map_range {α : Type} (N : ℕ) (f : ℕ → α) (i : ℕ) (hi : i < N)
    (d : α) : ((List.range N).map f).getD i d = f i := by
  have h1 : i < ((List.range N).map f).length := by simpa using hi
  rw [List.getD_eq_getElem _ _ h1, List.getElem_map, List.getElem_range]

lemma flatten_length_of_uniform {F : ℕ} (L : List (List ℚ))
    (hF : ∀ l ∈ L, l.length = F) : L.flatten.length = L.length * F := by
  induction L with
  | nil => simp
  | cons a L ih =>
    have ha := hF a (List.mem_cons_self a L)
    have hL : ∀ l ∈ L, l.length = F := fun l hl => hF l (List.mem_cons_of_mem a hl)
    simp [List.flatten_cons, ha, ih hL, Nat.succ_mul, Nat.add_comm]

lemma flatten_getD_block {F : ℕ} (L : List (List ℚ))
    (hF : ∀ l ∈ L, l.length = F) (i f : ℕ) (hi : i < L.length) (hf : f < F) :
    L.flatten.getD (i * F + f) 0 = (L.getD i []).getD f 0 := by
  induction L generalizing i with
  | nil => simp at hi
  | cons a L ih =>
    have ha := hF a (List.mem_cons_self a L)
    have hL : ∀ l ∈ L, l.length = F := fun l hl => hF l (List.mem_cons_of_mem a hl)
    cases i with
    | zero =>
      rw [List.flatten_cons]
      have hfa : f < a.length := by rw [ha]; exact hf
      simpa using List.getD_append a L.flatten 0 f hfa
    | succ i =>
      rw [List.flatten_cons]
      have hle : a.length ≤ (i + 1) * F + f := by
        rw [ha, Nat.succ_mul]
        omega
      rw [List.getD_append_right a L.flatten 0 _ hle]
      have hidx : (i + 1) * F + f - a.length = i * F + f := by
        rw [ha, Nat.succ_mul]
        omega
      rw [hidx]
      have hi' : i < L.length := by simpa using Nat.lt_of_succ_lt_succ (by simpa using hi)
      simpa using ih hL i hi'

lemma make_delayed_row (X : List (List ℚ)) (delays : List ℕ) (t : ℕ)
    (ht : t < X.length) :
    (make_delayed X delays).getD t [] =
      (delays.map fun d =>
        if t < d then List.replicate (numCols X) 0
        else X.getD (t - d) (List.replicate (numCols X) 0)).flatten := by
  unfold make_delayed
  exact getD_map_range X.length _ t ht []

lemma make_delayed_blocks_uniform (X : List (List ℚ)) (delays : List ℕ)
    (hF : ∀ r ∈ X, r.length = numCols X) (t : ℕ) (ht : t < X.length) :
    ∀ l ∈ (delays.map fun d =>
        if t < d then List.replicate (numCols X) 0
        else X.getD (t - d) (List.replicate (numCols X) 0)),
      l.length = numCols X := by
  intro l hl
  rcases List.mem_map.mp hl with ⟨d, _, rfl⟩
  by_cases hc : t < d
  · simp [hc]
  · simp only [if_neg hc]
    have htd : t - d < X.length := Nat.lt_of_le_of_lt (Nat.sub_le t d) ht
    rw [List.getD_eq_getElem _ _ htd]
    exact hF _ (List.getElem_mem htd)

/-- C1: for every T x F feature matrix and list of delays each below T,
make_delayed keeps the row count, every output row has F times k
entries, and block i (in delay-list order) at row t equals input row
t - d_i when t is at least d_i and is zero when t is below d_i. -/
theorem C1_make_delayed_spec (X : List (List ℚ)) (delays : List ℕ)
    (hF : ∀ r ∈ X, r.length = numCols X)
    (hd : ∀ d ∈ delays, d < X.length) :
    (make_delayed X delays).length = X.length ∧
    (∀ row ∈ make_delayed X delays,
      row.length = numCols X * delays.length) ∧
    (∀ t < X.length, ∀ i < delays.length, ∀ f < numCols X,
      ((make_delayed X delays).getD t []).getD (i * numCols X + f) 0 =
        if t < delays.getD i 0 then 0
        else (X.getD (t - delays.getD i 0) []).getD f 0) := by
  refine ⟨by simp [make_delayed], ?_, ?_⟩
  · intro row hrow
    unfold make_delayed at hrow
    rcases List.mem_map.mp hrow with ⟨t, htmem, rfl⟩
    have ht : t < X.length := List.mem_range.mp htmem
    rw [flatten_length_of_uniform _ (make_delayed_blocks_uniform X delays hF t ht)]
    simp [Nat.mul_comm]
  · intro t ht i hi f hf
    rw [make_delayed_row X delays t ht]
    have hblocks := make_delayed_blocks_uniform X delays hF t ht
    have hlen : i < (delays.map fun d =>
        if t < d then List.replicate (numCols X) 0
        else X.getD (t - d) (List.replicate (numCols X) 0)).length := by
      simpa using hi
    rw [flatten_getD_block _ hblocks i f hlen hf]
    rw [List.getD_eq_getElem _ _ hlen, List.getElem_map]
    have hdel : delays[i] = delays.getD i 0 := (List.getD_eq_getElem _ _ hi).symm
    rw [hdel]
    by_cases hc : t < delays.getD i 0
    · rw [if_pos hc, if_pos hc,
        List.getD_eq_getElem _ _ (by simpa using hf), List.getElem_replicate]
    · have htd : t - delays.getD i 0 < X.length :=
        Nat.lt_of_le_of_lt (Nat.sub_le t _) ht
      simp only [if_neg hc]
      rw [List.getD_eq_getElem _ _ htd, List.getD_eq_getElem _ _ htd]

/-- Witness for C1 at a concrete 3 x 2 matrix with delays 0 and 2. -/
theorem C1_make_delayed_spec_witness :
    (make_delayed [[1, 2], [3, 4], [5, 6]] [0, 2]).length =
        ([[1, 2], [3, 4], [5, 6]] : List (List ℚ)).length ∧
    (∀ row ∈ make_delayed [[1, 2], [3, 4], [5, 6]] [0, 2],
      row.length = numCols [[1, 2], [3, 4], [5, 6]] * ([0, 2] : List ℕ).length) ∧
    (∀ t < ([[1, 2], [3, 4], [5, 6]] : List (List ℚ)).length,
      ∀ i < ([0, 2] : List ℕ).length, ∀ f < numCols [[1, 2], [3, 4], [5, 6]],
      ((make_delayed [[1, 2], [3, 4], [5, 6]] [0, 2]).getD t []).getD
          (i * numCols [[1, 2], [3, 4], [5, 6]] + f) 0 =
        if t < ([0, 2] : List ℕ).getD i 0 then 0
        else (([[1, 2], [3, 4], [5, 6]] : List (List ℚ)).getD
            (t - ([0, 2] : List ℕ).getD i 0) []).getD f 0) :=
  C1_make_delayed_spec [[1, 2], [3, 4], [5, 6]] [0, 2]
    (by decide) (by decide)

/-- Mean of a list of rationals, as numpy mean: sum divided by length. -/
def colMean (xs : List ℚ) : ℚ := xs.sum / xs.length

/-- Population variance (ddof 0), the variance used by the z-scoring
inside the correlation helper. -/
def popVar (xs : List ℚ) : ℚ := colMean (xs.map fun x => (x - colMean xs) ^ 2)

/-- Covariance of two equally long lists about their own means. -/
def covar (xs ys : List ℚ) : ℚ :=
  colMean (List.zipWith (fun a b => (a - colMean xs) * (b - colMean ys)) xs ys)

/-- Modelled from the spec: npp.mcorr is imported by the notebook but
npp.py is not among the sources.  It computes the per-column Pearson
correlation by averaging products of z-scores; on a zero-variance
column the float division inside the z-score yields a nonfinite value
rather than raising, modelled here by the sentinel none.  The exact
square root of the product of variances stands in for the float one. -/
def pearson (xs ys : List ℚ) : Option ℚ :=
  if popVar xs = 0 ∨ popVar ys = 0 then none
  else some (covar xs ys / Rat.sqrt (popVar xs * popVar ys))

/-- Column j of a matrix stored as a list of rows. -/
def listColumn (j : ℕ) (A : List (List ℚ)) : List ℚ := A.map fun r => r.getD j 0

/-- Modelled from the spec: the correlation evaluation of the pipeline,
one Pearson correlation per output channel. -/
def mcorr (A B : List (List ℚ)) : List (Option ℚ) :=
  (List.range (numCols A)).map fun j => pearson (listColumn j A) (listColumn j B)

lemma sum_map_negQ (l : List ℚ) : (l.map fun a => -a).sum = -l.sum := by
  induction l with
  | nil => simp
  | cons a l ih => simp [ih]; ring

lemma zipWith_self (f : ℚ → ℚ → ℚ) (l : List ℚ) :
    List.zipWith f l l = l.map fun a => f a a := by
  induction l with
  | nil => simp
  | cons a l ih => simp [ih]

lemma zipWith_map_right_self (f : ℚ → ℚ → ℚ) (g : ℚ → ℚ) (l : List ℚ) :
    List.zipWith f l (l.map g) = l.map fun a => f a (g a) := by
  induction l with
  | nil => simp
  | cons a l ih => simp [ih]

lemma sum_const_list {c : ℚ} {l : List ℚ} (h : ∀ x ∈ l, x = c) :
    l.sum = l.length * c := by
  induction l with
  | nil => simp
  | cons a l ih =>
    have ha := h a (List.mem_cons_self a l)
    have hl : ∀ x ∈ l, x = c := fun x hx => h x (List.mem_cons_of_mem a hx)
    simp [ha, ih hl]
    ring

lemma colMean_const {c : ℚ} {l : List ℚ} (hne : l ≠ []) (h : ∀ x ∈ l, x = c) :
    colMean l = c := by
  have h0 : l.length ≠ 0 := fun hh => hne (List.length_eq_zero.mp hh)
  have hlen : (l.length : ℚ) ≠ 0 := Nat.cast_ne_zero.mpr h0
  unfold colMean
  rw [sum_const_list h, mul_comm, mul_div_assoc, div_self hlen, mul_one]

lemma colMean_zeros {l : List ℚ} (h : ∀ y ∈ l, y = 0) : colMean l = 0 := by
  unfold colMean
  rw [List.sum_eq_zero h, zero_div]

lemma popVar_const {c : ℚ} {l : List ℚ} (h : ∀ x ∈ l, x = c) :
    popVar l = 0 := by
  rcases eq_or_ne l [] with rfl | hne
  · simp [popVar, colMean]
  · have hzero : ∀ y ∈ l.map fun x => (x - colMean l) ^ 2, y = 0 := by
      intro y hy
      rcases List.mem_map.mp hy with ⟨x, hx, rfl⟩
      rw [h x hx, colMean_const hne h, sub_self]
      ring
    unfold popVar
    exact colMean_zeros hzero

lemma popVar_nonneg (l : List ℚ) : 0 ≤ popVar l := by
  unfold popVar colMean
  apply div_nonneg
  · apply List.sum_nonneg
    intro x hx
    rcases List.mem_map.mp hx with ⟨a, _, rfl⟩
    positivity
  · positivity

lemma covar_self (l : List ℚ) : covar l l = popVar l := by
  unfold covar popVar
  rw [zipWith_self]
  congr 1
  refine List.map_congr_left fun a _ => ?_
  ring

lemma colMean_map_neg (l : List ℚ) :
    colMean (l.map fun a => -a) = -colMean l := by
  unfold colMean
  rw [sum_map_negQ]
  simp [neg_div]

lemma popVar_map_neg (l : List ℚ) :
    popVar (l.map fun a => -a) = popVar l := by
  unfold popVar
  rw [colMean_map_neg, List.map_map]
  congr 1
  refine List.map_congr_left fun a _ => ?_
  simp only [Function.comp_apply]
  ring

lemma covar_map_neg (l : List ℚ) :
    covar l (l.map fun a => -a) = -popVar l := by
  unfold covar popVar
  rw [colMean_map_neg, zipWith_map_right_self]
  have hmap : (l.map fun a => (a - colMean l) * (-a - -colMean l)) =
      (l.map fun x => (x - colMean l) ^ 2).map fun a => -a := by
    rw [List.map_map]
    refine List.map_congr_left fun a _ => ?_
    simp only [Function.comp_apply]
    ring
  rw [hmap, colMean_map_neg]

/-- C5: a constant (zero-variance) held-out response column makes the
correlation evaluation return the nonfinite sentinel for that channel
of the V-length result vector; the evaluation is total (no exception)
and the entry is not a silent zero. -/
theorem C5_zero_variance_sentinel (A B : List (List ℚ)) (j : ℕ) (c : ℚ)
    (hj : j < numCols A) (hc : ∀ x ∈ listColumn j A, x = c) :
    (mcorr A B).length = numCols A ∧
    (mcorr A B).getD j none = none ∧
    (mcorr A B).getD j none ≠ some 0 := by
  have hv : popVar (listColumn j A) = 0 := popVar_const hc
  have hentry : (mcorr A B).getD j none = none := by
    unfold mcorr
    rw [getD_map_range _ _ j hj]
    unfold pearson
    rw [if_pos (Or.inl hv)]
  refine ⟨by simp [mcorr], hentry, ?_⟩
  rw [hentry]
  exact fun hcontra => Option.noConfusion hcontra

/-- Witness for C5: a 2 x 2 response matrix whose first column is the
constant 1. -/
theorem C5_zero_variance_sentinel_witness :
    (mcorr [[1, 5], [1, 7]] [[2, 3], [4, 5]]).length =
        numCols [[1, 5], [1, 7]] ∧
    (mcorr [[1, 5], [1, 7]] [[2, 3], [4, 5]]).getD 0 none = none ∧
    (mcorr [[1, 5], [1, 7]] [[2, 3], [4, 5]]).getD 0 none ≠ some 0 :=
  C5_zero_variance_sentinel [[1, 5], [1, 7]] [[2, 3], [4, 5]] 0 1
    (by decide) (by decide)

/-- C7: for a column with nonzero variance, the Pearson correlation of
the column with itself is 1 and with its exact negation is -1. -/
theorem C7_pearson_self_and_neg (y : List ℚ) (h : popVar y ≠ 0) :
    pearson y y = some 1 ∧ pearson y (y.map fun a => -a) = some (-1) := by
  have hv : 0 ≤ popVar y := popVar_nonneg y
  have hsqrt : Rat.sqrt (popVar y * popVar y) = popVar y := by
    rw [Rat.sqrt_eq, abs_of_nonneg hv]
  constructor
  · unfold pearson
    rw [if_neg (by tauto)]
    rw [covar_self, hsqrt, div_self h]
  · unfold pearson
    have hvneg : popVar (y.map fun a => -a) = popVar y := popVar_map_neg y
    rw [if_neg (by rw [hvneg]; tauto)]
    rw [covar_map_neg, hvneg, hsqrt, neg_div, div_self h]

/-- Witness for C7 at the concrete column with entries 1 and 3. -/
theorem C7_pearson_self_and_neg_witness :
    pearson [1, 3] [1, 3] = some 1 ∧
    pearson [1, 3] (([1, 3] : List ℚ).map fun a => -a) = some (-1) :=
  C7_pearson_self_and_neg [1, 3] (by norm_num [popVar, colMean])

/-- C2 counterexample: on the rank-deficient design matrix with all
entries 1, the first estimator of the notebook, which inverts the
normal equations explicitly, fails (numpy.linalg.inv raises, modelled
none) even though a weight vector with zero residual exists, so it does
not compute the minimizing (minimum-norm) solution there. -/
theorem C2_normal_inverse_counterexample :
    beta_estimate_1 (!![1, 1; 1, 1] : Matrix (Fin 2) (Fin 2) ℚ)
        (!![2; 2] : Matrix (Fin 2) (Fin 1) ℚ) = none ∧
    frobSq ((!![2; 2] : Matrix (Fin 2) (Fin 1) ℚ) -
        (!![1, 1; 1, 1] : Matrix (Fin 2) (Fin 2) ℚ) *
        (!![1; 1] : Matrix (Fin 2) (Fin 1) ℚ)) = 0 := by
  constructor
  · unfold beta_estimate_1 np_linalg_inv
    rw [if_pos]
    · rfl
    · rw [Matrix.det_fin_two]
      simp [Matrix.mul_apply, Fin.sum_univ_two]
  · unfold frobSq
    simp [Matrix.mul_apply, Fin.sum_univ_two, Fin.sum_univ_one]
    norm_num

/-- C2 amended: in exact arithmetic, on a design matrix of full column
rank the lstsq-based estimator beta_ols is the unique minimizer of the
column-wise sum of squared residuals, hence in particular the
minimum-norm least-squares solution. -/
theorem C2_lstsq_unique_minimizer {T P V : ℕ} (X : Matrix (Fin T) (Fin P) ℚ)
    (Y : Matrix (Fin T) (Fin V) ℚ) (B : Matrix (Fin P) (Fin V) ℚ)
    (h : (Xᵀ * X).det ≠ 0) :
    frobSq (Y - X * beta_ols X Y) ≤ frobSq (Y - X * B) ∧
    (frobSq (Y - X * B) ≤ frobSq (Y - X * beta_ols X Y) →
      B = beta_ols X Y) := by
  constructor
  · rw [residual_decomp X Y h B]
    exact le_add_of_nonneg_right (frobSq_nonneg _)
  · intro hB
    rw [residual_decomp X Y h B] at hB
    have hextra : frobSq (X * (beta_ols X Y - B)) = 0 := by
      have h0 := frobSq_nonneg (X * (beta_ols X Y - B))
      linarith
    have hXzero : X * (beta_ols X Y - B) = 0 := frobSq_eq_zero hextra
    have hAzero : (Xᵀ * X) * (beta_ols X Y - B) = 0 := by
      rw [Matrix.mul_assoc, hXzero, Matrix.mul_zero]
    have := cancel_left h hAzero
    have hBB : beta_ols X Y - B = 0 := this
    have := sub_eq_zero.mp hBB
    exact this.symm

/-- Identity design matrix used by several witnesses. -/
def Xid2 : Matrix (Fin 2) (Fin 2) ℚ := 1

/-- Concrete 2 x 1 response matrix used by the C2 witness. -/
def Y35 : Matrix (Fin 2) (Fin 1) ℚ := !![3; 5]

/-- Concrete zero candidate weight matrix used by the C2 witness. -/
def B0 : Matrix (Fin 2) (Fin 1) ℚ := 0

/-- Concrete 2 x 2 response matrix used by the C3 witness. -/
def Y1234 : Matrix (Fin 2) (Fin 2) ℚ := !![1, 2; 3, 4]

/-- Concrete 2 x 1 true weight matrix used by the C4 witness. -/
def B23 : Matrix (Fin 2) (Fin 1) ℚ := !![2; 3]

/-- Witness for the amended C2 at the identity design matrix. -/
theorem C2_lstsq_unique_minimizer_witness :
    frobSq (Y35 - Xid2 * beta_ols Xid2 Y35) ≤ frobSq (Y35 - Xid2 * B0) ∧
    (frobSq (Y35 - Xid2 * B0) ≤ frobSq (Y35 - Xid2 * beta_ols Xid2 Y35) →
      B0 = beta_ols Xid2 Y35) :=
  C2_lstsq_unique_minimizer Xid2 Y35 B0
    (by simp [Xid2, Matrix.transpose_one])

/-- C3: with a full-column-rank design matrix, the least-squares weight
matrix satisfies the normal equation exactly in exact arithmetic. -/
theorem C3_normal_equation_spec {T P V : ℕ} (X : Matrix (Fin T) (Fin P) ℚ)
    (Y : Matrix (Fin T) (Fin V) ℚ) (h : (Xᵀ * X).det ≠ 0) :
    (Xᵀ * X) * beta_ols X Y = Xᵀ * Y :=
  normal_equation X Y h

/-- Witness for C3 at the identity design matrix. -/
theorem C3_normal_equation_spec_witness :
    (Xid2ᵀ * Xid2) * beta_ols Xid2 Y1234 = Xid2ᵀ * Y1234 :=
  C3_normal_equation_spec Xid2 Y1234
    (by simp [Xid2, Matrix.transpose_one])

/-- C4: with zero noise, responses generated as Y equals X times the
true weights are recovered exactly by the least-squares estimator when
the design matrix has full column rank. -/
theorem C4_zero_noise_recovery {T P V : ℕ} (X : Matrix (Fin T) (Fin P) ℚ)
    (B : Matrix (Fin P) (Fin V) ℚ) (h : (Xᵀ * X).det ≠ 0) :
    beta_ols X (X * B) = B := by
  unfold beta_ols
  rw [← Matrix.mul_assoc Xᵀ X B, ← Matrix.mul_assoc, qInv_mul h, Matrix.one_mul]

/-- Witness for C4 at the identity design matrix and concrete weights. -/
theorem C4_zero_noise_recovery_witness :
    beta_ols Xid2 (Xid2 * B23) = B23 :=
  C4_zero_noise_recovery Xid2 B23 (by simp [Xid2, Matrix.transpose_one])

/-- Error text for the row-count check of the least-squares call. -/
def lstsqShapeErr : String := "Incompatible dimensions"

/-- Error text for the inner-dimension check of the matrix product. -/
def dotShapeErr : String := "shapes not aligned"

/-- List matrix read as a Fin-indexed matrix of the given dimensions. -/
def toMatQ (T C : ℕ) (L : List (List ℚ)) : Matrix (Fin T) (Fin C) ℚ :=
  Matrix.of fun i j => (L.getD i []).getD j 0

/-- Fin-indexed matrix written back as a list of rows, with every row
produced in full (no truncation or padding). -/
def ofMatQ {P V : ℕ} (M : Matrix (Fin P) (Fin V) ℚ) : List (List ℚ) :=
  List.ofFn fun i => List.ofFn fun j => M i j

/-- Plain list-level matrix product, producing one full output row per
left row and one entry per right column. -/
def matmulList (A B : List (List ℚ)) : List (List ℚ) :=
  A.map fun row => (List.range (numCols B)).map fun j =>
    ((List.range B.length).map fun k => row.getD k 0 * (B.getD k []).getD j 0).sum

/-- Modelled from the spec: numpy.dot validates that the inner
dimensions agree and raises a descriptive ValueError otherwise; it
never truncates or pads either operand. -/
def dotChecked (A B : List (List ℚ)) : Except String (List (List ℚ)) :=
  if numCols A = B.length then Except.ok (matmulList A B)
  else Except.error dotShapeErr

/-- Modelled from the spec: numpy.linalg.lstsq validates that the two
inputs have the same number of rows and raises a descriptive
LinAlgError otherwise; on success it returns the full P x V weight
matrix for the exact-arithmetic solver. -/
def np_linalg_lstsq (X Y : List (List ℚ)) : Except String (List (List ℚ)) :=
  if X.length = Y.length then
    Except.ok (ofMatQ (beta_ols (toMatQ X.length (numCols X) X)
      (toMatQ X.length (numCols Y) Y)))
  else Except.error lstsqShapeErr

/-- C6: mismatched row counts make the least-squares call fail fast
with a descriptive error, a test-feature column count that differs from
the learned weight row count makes the prediction product fail fast,
and on success both operations return output of the full expected
shape, never a truncated or padded one. -/
theorem C6_shape_mismatch_fail_fast (X Y Xte beta : List (List ℚ))
    (h1 : X.length ≠ Y.length) (h2 : numCols Xte ≠ beta.length) :
    np_linalg_lstsq X Y = Except.error lstsqShapeErr ∧
    dotChecked Xte beta = Except.error dotShapeErr ∧
    (∀ X2 Y2 B2 : List (List ℚ), np_linalg_lstsq X2 Y2 = Except.ok B2 →
      B2.length = numCols X2 ∧ ∀ r ∈ B2, r.length = numCols Y2) ∧
    (∀ A2 B2 C2 : List (List ℚ), dotChecked A2 B2 = Except.ok C2 →
      C2.length = A2.length ∧ ∀ r ∈ C2, r.length = numCols B2) := by
  refine ⟨?_, ?_, ?_, ?_⟩
  · unfold np_linalg_lstsq
    rw [if_neg h1]
  · unfold dotChecked
    rw [if_neg h2]
  · intro X2 Y2 B2 hok
    unfold np_linalg_lstsq at hok
    by_cases hc : X2.length = Y2.length
    · rw [if_pos hc] at hok
      have hB : B2 = ofMatQ (beta_ols (toMatQ X2.length (numCols X2) X2)
          (toMatQ X2.length (numCols Y2) Y2)) := by
        exact (Except.ok.injEq _ _).mp hok.symm
      subst hB
      constructor
      · simp [ofMatQ]
      · intro r hr
        unfold ofMatQ at hr
        rcases (List.mem_ofFn _ _).mp hr with ⟨i, hi⟩
        rw [← hi]
        simp
    · rw [if_neg hc] at hok
      exact absurd hok (by simp)
  · intro A2 B2 C2 hok
    unfold dotChecked at hok
    by_cases hc : numCols A2 = B2.length
    · rw [if_pos hc] at hok
      have hC : C2 = matmulList A2 B2 := (Except.ok.injEq _ _).mp hok.symm
      subst hC
      constructor
      · simp [matmulList]
      · intro r hr
        unfold matmulList at hr
        rcases List.mem_map.mp hr with ⟨row, _, rfl⟩
        simp
    · rw [if_neg hc] at hok
      exact absurd hok (by simp)

/-- Witness for C6 at concretely mismatched shapes. -/
theorem C6_shape_mismatch_fail_fast_witness :
    np_linalg_lstsq [[1]] [] = Except.error lstsqShapeErr ∧
    dotChecked [[1, 2]] [[1]] = Except.error dotShapeErr ∧
    (∀ X2 Y2 B2 : List (List ℚ), np_linalg_lstsq X2 Y2 = Except.ok B2 →
      B2.length = numCols X2 ∧ ∀ r ∈ B2, r.length = numCols Y2) ∧
    (∀ A2 B2 C2 : List (List ℚ), dotChecked A2 B2 = Except.ok C2 →
      C2.length = A2.length ∧ ∀ r ∈ C2, r.length = numCols B2) :=
  C6_shape_mismatch_fail_fast [[1]] [] [[1, 2]] [[1]]
    (by decide) (by decide)

/-- The full pipeline of the tutorial: delay embedding of training and
test features, least-squares fit, prediction on the test features, and
per-channel correlation against the held-out responses. -/
def pipeline (Xtr Ytr Xte Yte : List (List ℚ)) (delays : List ℕ) :
    List (List ℚ) × Except String (List (List ℚ)) ×
      Except String (List (List ℚ)) × Except String (List (Option ℚ)) :=
  let dXtr := make_delayed Xtr delays
  let dXte := make_delayed Xte delays
  let b := np_linalg_lstsq dXtr Ytr
  let pred := b.bind fun beta => dotChecked dXte beta
  let corrs := pred.map fun p => mcorr Yte p
  (dXtr, b, pred, corrs)

/-- C8: the pipeline is a pure function of its inputs, so two runs on
equal feature matrices, response matrices, and delay lists return equal
delayed matrices, weights, predictions, and correlation vectors. -/
theorem C8_pipeline_deterministic
    (Xtr1 Ytr1 Xte1 Yte1 Xtr2 Ytr2 Xte2 Yte2 : List (List ℚ))
    (delays1 delays2 : List ℕ)
    (hX : Xtr1 = Xtr2) (hY : Ytr1 = Ytr2) (hXt : Xte1 = Xte2)
    (hYt : Yte1 = Yte2) (hD : delays1 = delays2) :
    pipeline Xtr1 Ytr1 Xte1 Yte1 delays1 =
      pipeline Xtr2 Ytr2 Xte2 Yte2 delays2 := by
  subst hX hY hXt hYt hD
  rfl

/-- Witness for C8 at concrete inputs. -/
theorem C8_pipeline_deterministic_witness :
    pipeline [[1]] [[1]] [[1]] [[1]] [0] =
      pipeline [[1]] [[1]] [[1]] [[1]] [0] :=
  C8_pipeline_deterministic [[1]] [[1]] [[1]] [[1]] [[1]] [[1]] [[1]] [[1]]
    [0] [0] rfl rfl rfl rfl rfl

/-- Mean of a list of reals: numpy mean, sum divided by length. -/
noncomputable def sampleMeanR (xs : List ℝ) : ℝ := xs.sum / xs.length

/-- Bessel-corrected sample variance, numpy var with ddof 1: the sum of
squared deviations from the mean divided by length minus one. -/
noncomputable def besselVar (xs : List ℝ) : ℝ :=
  ((xs.map fun x => (x - sampleMeanR xs) ^ 2).sum) / ((xs.length : ℝ) - 1)

/-- Bessel-corrected sample standard deviation, numpy std with ddof 1. -/
noncomputable def besselStd (xs : List ℝ) : ℝ := Real.sqrt (besselVar xs)

open scoped Classical

/-- Embedding of t_value_from_sample of the p-value notebook: the mean
divided by the standard error of the mean.  Float division by a zero
denominator produces a nonfinite value (inf or nan) instead of raising;
the nonfinite outcome is modelled by the sentinel none. -/
noncomputable def t_value_from_sample (sample : List ℝ) : Option ℝ :=
  if besselStd sample / Real.sqrt (sample.length : ℝ) = 0 then none
  else some (sampleMeanR sample / (besselStd sample / Real.sqrt (sample.length : ℝ)))

lemma sum_const_listR {c : ℝ} {l : List ℝ} (h : ∀ x ∈ l, x = c) :
    l.sum = l.length * c := by
  induction l with
  | nil => simp
  | cons a l ih =>
    have ha := h a (List.mem_cons_self a l)
    have hl : ∀ x ∈ l, x = c := fun x hx => h x (List.mem_cons_of_mem a hx)
    simp [ha, ih hl]
    ring

lemma sampleMeanR_const {c : ℝ} {l : List ℝ} (hne : l ≠ [])
    (h : ∀ x ∈ l, x = c) : sampleMeanR l = c := by
  have h0 : l.length ≠ 0 := fun hh => hne (List.length_eq_zero.mp hh)
  have hlen : (l.length : ℝ) ≠ 0 := Nat.cast_ne_zero.mpr h0
  unfold sampleMeanR
  rw [sum_const_listR h, mul_comm, mul_div_assoc, div_self hlen, mul_one]

lemma besselVar_const {c : ℝ} {l : List ℝ} (h : ∀ x ∈ l, x = c) :
    besselVar l = 0 := by
  rcases eq_or_ne l [] with rfl | hne
  · simp [besselVar]
  · have hzero : ∀ y ∈ l.map fun x => (x - sampleMeanR l) ^ 2, y = 0 := by
      intro y hy
      rcases List.mem_map.mp hy with ⟨x, hx, rfl⟩
      rw [h x hx, sampleMeanR_const hne h, sub_self]
      ring
    unfold besselVar
    rw [List.sum_eq_zero hzero, zero_div]

lemma besselVar_nonneg {l : List ℝ} (hn : 2 ≤ l.length) :
    0 ≤ besselVar l := by
  unfold besselVar
  apply div_nonneg
  · apply List.sum_nonneg
    intro x hx
    rcases List.mem_map.mp hx with ⟨a, _, rfl⟩
    positivity
  · have : (2 : ℝ) ≤ (l.length : ℝ) := by exact_mod_cast hn
    linarith

/-- C9: for a sample of length at least two with nonzero Bessel
variance, t_value_from_sample returns the mean divided by the standard
error s over sqrt N with s the ddof-1 standard deviation; for a
constant sample or a singleton sample the denominator is zero and the
result is the nonfinite sentinel, not an exception. -/
theorem C9_t_value_from_sample_spec (xs : List ℝ) :
    (2 ≤ xs.length → besselVar xs ≠ 0 →
      t_value_from_sample xs =
        some (sampleMeanR xs / (besselStd xs / Real.sqrt (xs.length : ℝ)))) ∧
    ((∀ x ∈ xs, x = xs.headD 0) ∨ xs.length = 1 →
      t_value_from_sample xs = none) := by
  constructor
  · intro hlen hvar
    have hpos : 0 < besselVar xs := lt_of_le_of_ne (besselVar_nonneg hlen) (Ne.symm hvar)
    have hstd : 0 < besselStd xs := Real.sqrt_pos.mpr hpos
    have hN : (0 : ℝ) < Real.sqrt (xs.length : ℝ) := by
      apply Real.sqrt_pos.mpr
      have : (2 : ℝ) ≤ (xs.length : ℝ) := by exact_mod_cast hlen
      linarith
    have hden : besselStd xs / Real.sqrt (xs.length : ℝ) ≠ 0 :=
      ne_of_gt (div_pos hstd hN)
    unfold t_value_from_sample
    rw [if_neg hden]
  · intro hcase
    have hvar0 : besselVar xs = 0 := by
      rcases hcase with hconst | hone
      · exact besselVar_const hconst
      · rcases xs with _ | ⟨a, xs⟩
        · simp [besselVar]
        · rcases xs with _ | ⟨b, xs⟩
          · exact besselVar_const (c := a) (by
              intro x hx
              simpa using hx)
          · simp at hone
    have hstd0 : besselStd xs = 0 := by
      unfold besselStd
      rw [hvar0, Real.sqrt_zero]
    unfold t_value_from_sample
    rw [if_pos (by rw [hstd0, zero_div])]

/-- Witness for C9: a nonconstant two-element sample and a constant
two-element sample. -/
theorem C9_t_value_from_sample_spec_witness :
    t_value_from_sample [0, 2] =
      some (sampleMeanR [0, 2] /
        (besselStd [0, 2] / Real.sqrt (([0, 2] : List ℝ).length : ℝ))) ∧
    t_value_from_sample [5, 5] = none :=
  ⟨(C9_t_value_from_sample_spec [0, 2]).1 (by norm_num)
      (by norm_num [besselVar, sampleMeanR]),
    (C9_t_value_from_sample_spec [5, 5]).2 (Or.inl (by
      intro x hx
      simpa using hx))⟩

/-- Sample of one experiment: the drawn noise shifted by the true mean,
mirroring norv.rvs(size n) + mu with the random draws passed in. -/
noncomputable def ci_sample (mu : ℝ) (noise : List ℝ) : List ℝ :=
  noise.map fun z => z + mu

/-- Estimated effect of one experiment: the sample mean. -/
noncomputable def ci_effect (mu : ℝ) (noise : List ℝ) : ℝ :=
  sampleMeanR (ci_sample mu noise)

/-- Standard error of the mean of one experiment: the ddof-1 standard
deviation of the sample divided by the square root of n. -/
noncomputable def ci_sem (n : ℕ) (mu : ℝ) (noise : List ℝ) : ℝ :=
  besselStd (ci_sample mu noise) / Real.sqrt (n : ℝ)

/-- The t statistic of one experiment. -/
noncomputable def ci_t (n : ℕ) (mu : ℝ) (noise : List ℝ) : ℝ :=
  ci_effect mu noise / ci_sem n mu noise

/-- Embedding of confidence_intervals of the p-value notebook.
Modelled from the spec where externals enter: the scipy random draws
are passed in as the noise lists and the two t-distribution quantiles
strv.isf((1-CI)/2) and strv.isf(alpha) as the parameters t_ci and
t_alph, since scipy.stats is an external library.  The five returned
arrays are effect, detect, lCI, uCI and t, each of length Nexp. -/
noncomputable def confidence_intervals (Nexp : ℕ) (CI : ℝ) (n : ℕ)
    (mu sigma alpha : ℝ) (t_ci t_alph : ℝ) (noise : ℕ → List ℝ) :
    List ℝ × List Bool × List ℝ × List ℝ × List ℝ :=
  ((List.range Nexp).map fun i => ci_effect mu (noise i),
   (List.range Nexp).map fun i =>
     if t_alph < ci_t n mu (noise i) then true else false,
   (List.range Nexp).map fun i =>
     ci_effect mu (noise i) - t_ci * ci_sem n mu (noise i),
   (List.range Nexp).map fun i =>
     ci_effect mu (noise i) + t_ci * ci_sem n mu (noise i),
   (List.range Nexp).map fun i => ci_t n mu (noise i))

lemma ci_sem_nonneg (n : ℕ) (mu : ℝ) (noise : List ℝ) :
    0 ≤ ci_sem n mu noise := by
  unfold ci_sem besselStd
  exact div_nonneg (Real.sqrt_nonneg _) (Real.sqrt_nonneg _)

/-- C10: whenever the confidence level lies in (0,1) so that the upper
tail quantile t_ci is nonnegative, every experiment has its estimated
effect bracketed by the returned confidence bounds, and all five
returned arrays have length Nexp. -/
theorem C10_confidence_intervals_bracket (Nexp : ℕ) (CI : ℝ) (n : ℕ)
    (mu sigma alpha t_ci t_alph : ℝ) (noise : ℕ → List ℝ)
    (hn : 2 ≤ n) (hs : 0 < sigma) (hCI1 : 0 < CI) (hCI2 : CI < 1)
    (ht : 0 ≤ t_ci) :
    ((confidence_intervals Nexp CI n mu sigma alpha t_ci t_alph noise).1.length = Nexp ∧
     (confidence_intervals Nexp CI n mu sigma alpha t_ci t_alph noise).2.1.length = Nexp ∧
     (confidence_intervals Nexp CI n mu sigma alpha t_ci t_alph noise).2.2.1.length = Nexp ∧
     (confidence_intervals Nexp CI n mu sigma alpha t_ci t_alph noise).2.2.2.1.length = Nexp ∧
     (confidence_intervals Nexp CI n mu sigma alpha t_ci t_alph noise).2.2.2.2.length = Nexp) ∧
    ∀ i < Nexp,
      (confidence_intervals Nexp CI n mu sigma alpha t_ci t_alph noise).2.2.1.getD i 0 ≤
        (confidence_intervals Nexp CI n mu sigma alpha t_ci t_alph noise).1.getD i 0 ∧
      (confidence_intervals Nexp CI n mu sigma alpha t_ci t_alph noise).1.getD i 0 ≤
        (confidence_intervals Nexp CI n mu sigma alpha t_ci t_alph noise).2.2.2.1.getD i 0 := by
  constructor
  · refine ⟨?_, ?_, ?_, ?_, ?_⟩ <;> simp [confidence_intervals]
  · intro i hi
    have hw : 0 ≤ t_ci * ci_sem n mu (noise i) :=
      mul_nonneg ht (ci_sem_nonneg n mu (noise i))
    unfold confidence_intervals
    rw [getD_map_range Nexp _ i hi, getD_map_range Nexp _ i hi,
      getD_map_range Nexp _ i hi]
    constructor
    · linarith
    · linarith

/-- Witness for C10 at one experiment with concrete parameters. -/
theorem C10_confidence_intervals_bracket_witness :
    ((confidence_intervals 1 (1/2) 2 0 1 (1/20) 1 1 fun i => [0, 1]).1.length = 1 ∧
     (confidence_intervals 1 (1/2) 2 0 1 (1/20) 1 1 fun i => [0, 1]).2.1.length = 1 ∧
     (confidence_intervals 1 (1/2) 2 0 1 (1/20) 1 1 fun i => [0, 1]).2.2.1.length = 1 ∧
     (confidence_intervals 1 (1/2) 2 0 1 (1/20) 1 1 fun i => [0, 1]).2.2.2.1.length = 1 ∧
     (confidence_intervals 1 (1/2) 2 0 1 (1/20) 1 1 fun i => [0, 1]).2.2.2.2.length = 1) ∧
    ∀ i < 1,
      (confidence_intervals 1 (1/2) 2 0 1 (1/20) 1 1 fun i => [0, 1]).2.2.1.getD i 0 ≤
        (confidence_intervals 1 (1/2) 2 0 1 (1/20) 1 1 fun i => [0, 1]).1.getD i 0 ∧
      (confidence_intervals 1 (1/2) 2 0 1 (1/20) 1 1 fun i => [0, 1]).1.getD i 0 ≤
        (confidence_intervals 1 (1/2) 2 0 1 (1/20) 1 1 fun i => [0, 1]).2.2.2.1.getD i 0 :=
  C10_confidence_intervals_bracket 1 (1/2) 2 0 1 (1/20) 1 1 (fun i => [0, 1])
    (by norm_num) (by norm_num) (by norm_num) (by norm_num) (by norm_num)
